import Mathlib

/-!
Shallow embedding of the student record store from `src/main.c` of the
Student Management System (C).

Modelling conventions:
* The C `float` values (grades, averages) are modelled as exact rationals `ℚ`.
* The growable array of students is modelled as a `List Student`;
  `students_size` is its length.
* C `int` arithmetic is 32-bit; where overflow matters (the subtraction
  comparator in `cmp_students`) the result is reduced modulo `2^32` into
  `[-2^31, 2^31)` via `wrap32`. Everywhere else the C code only compares
  or copies `int` values, so plain `Int` is faithful.
* Functions that mutate the store are modelled as pure functions returning
  the updated store (paired with the C `bool` result where present).
-/

/-- A student record: `struct Student` from `student.h`
(`int id; char name[NAME_LEN]; float *grades; int gradeCount; float average;`).
`gradeCount` is the length of `grades`. -/
structure Student where
  id : Int
  name : String
  grades : List ℚ
  average : ℚ
deriving DecidableEq, Repr

/-- NAME_LEN from `student.h`. -/
def NAME_LEN : Nat := 50

/-- Names are written with `strncpy(dst, src, NAME_LEN-1)` followed by a
forced terminator, i.e. truncated to at most `NAME_LEN - 1` characters. -/
def truncName (name : String) : String := name.take (NAME_LEN - 1)

/-- Default student used to totalise out-of-range array reads. -/
def defaultStudent : Student := { id := 0, name := "", grades := [], average := 0 }

instance : Inhabited Student := ⟨defaultStudent⟩

/-- `SortKey` enum from `student.h`. -/
inductive SortKey where
  | SORT_BY_ID
  | SORT_BY_AVG
deriving DecidableEq, Repr

/-- `SortMethod` enum from `student.h`. -/
inductive SortMethod where
  | BUBBLE
  | INSERTION
  | MERGE
deriving DecidableEq, Repr

/-- Loop body of `index_of_id`: scan the remaining students, `i` being the
index of the head of the remaining list in the full array. -/
def indexOfIdAux (id : Int) : List Student → Int → Int
  | [], _ => -1
  | s :: rest, i => if s.id = id then i else indexOfIdAux id rest (i + 1)

/-- `index_of_id` from `main.c`: index of the first student with the given
id, or `-1` if there is none. -/
def index_of_id (l : List Student) (id : Int) : Int :=
  indexOfIdAux id l 0

/-- `add_student` from `main.c`: refuse duplicate ids, otherwise append a
fresh record with empty grades and zero average. -/
def add_student (id : Int) (name : String) (l : List Student) : Bool × List Student :=
  if index_of_id l id ≠ -1 then (false, l)
  else (true, l ++ [{ id := id, name := truncName name, grades := [], average := 0 }])

/-- In-place update of the element at a given index (identity when the
index is out of range). -/
def listModify (f : Student → Student) : List Student → Nat → List Student
  | [], _ => []
  | s :: rest, 0 => f s :: rest
  | s :: rest, n + 1 => s :: listModify f rest n

/-- `delete_student` from `main.c`: locate the id, then shift all later
elements left by one (= remove the element at that index). -/
def delete_student (id : Int) (l : List Student) : Bool × List Student :=
  let idx := index_of_id l id
  if idx = -1 then (false, l)
  else (true, l.eraseIdx idx.toNat)

/-- `update_student_name` from `main.c`. -/
def update_student_name (id : Int) (newname : String) (l : List Student) :
    Bool × List Student :=
  let idx := index_of_id l id
  if idx = -1 then (false, l)
  else (true, listModify (fun s => { s with name := truncName newname }) l idx.toNat)

/-- `sum_grades_recursive` from `main.c`: divide-and-conquer sum of a grade
array; `n <= 0` gives `0`, one element gives that element, otherwise split
at `mid = n / 2` and add the two recursive sums. -/
def sum_grades_recursive (l : List ℚ) : ℚ :=
  if l.length ≤ 1 then l.headD 0
  else
    sum_grades_recursive (l.take (l.length / 2)) +
      sum_grades_recursive (l.drop (l.length / 2))
termination_by l.length
decreasing_by
  all_goals simp only [List.length_take, List.length_drop]
  all_goals omega

/-- `recalc_average` from `main.c`: zero grades give average `0`, otherwise
the recursive sum divided by the grade count. -/
def recalc_average (s : Student) : Student :=
  if s.grades.length = 0 then { s with average := 0 }
  else { s with average := sum_grades_recursive s.grades / (s.grades.length : ℚ) }

/-- `add_grade_to_student` from `main.c`: locate the id, append the grade
and synchronously recompute the average. -/
def add_grade_to_student (id : Int) (grade : ℚ) (l : List Student) :
    Bool × List Student :=
  let idx := index_of_id l id
  if idx = -1 then (false, l)
  else
    (true,
      listModify (fun s => recalc_average { s with grades := s.grades ++ [grade] })
        l idx.toNat)

/-- Reduce an integer into the 32-bit two's-complement range
`[-2^31, 2^31)`; models what happens to the C `int` subtraction in
`cmp_students` when it overflows. -/
def wrap32 (d : Int) : Int := (d + 2147483648) % 4294967296 - 2147483648

/-- `cmp_students` from `main.c`: by id it returns `a->id - b->id`
(a 32-bit subtraction, hence `wrap32`); by average it returns `-1`, `1`
or `0` by direct float comparison. -/
def cmp_students (a b : Student) (key : SortKey) : Int :=
  match key with
  | .SORT_BY_ID => wrap32 (a.id - b.id)
  | .SORT_BY_AVG =>
    if a.average < b.average then -1
    else if b.average < a.average then 1
    else 0

/-- One inner pass of `bubble_sort`: compare-and-swap adjacent pairs left
to right, performing at most `k` comparisons (`k = n - 1 - i` in the C
code); returns the updated list and whether any swap occurred. -/
def bubblePass (key : SortKey) : List Student → Nat → List Student × Bool
  | l, 0 => (l, false)
  | [], _ + 1 => ([], false)
  | [a], _ + 1 => ([a], false)
  | a :: b :: rest, k + 1 =>
    if cmp_students a b key > 0 then
      let p := bubblePass key (a :: rest) k
      (b :: p.1, true)
    else
      let p := bubblePass key (b :: rest) k
      (a :: p.1, p.2)

/-- Outer loop of `bubble_sort`: pass `i` runs with bound `n - 1 - i`;
stop early when a pass performs no swap. -/
def bubbleAux (key : SortKey) : List Student → Nat → List Student
  | l, 0 => l
  | l, k + 1 =>
    let p := bubblePass key l (k + 1)
    if p.2 then bubbleAux key p.1 k else p.1

/-- `bubble_sort` from `main.c` (adjacent swaps, shrinking bound, early
exit when a pass swaps nothing). -/
def bubble_sort (key : SortKey) (l : List Student) : List Student :=
  bubbleAux key l (l.length - 1)

/-- Inner loop of `insertion_sort` on the reversed sorted prefix: scan from
the right, shifting every element strictly greater than `x`, and place `x`
right after the first element that compares `<= 0` with it. -/
def insRevAux (key : SortKey) (x : Student) : List Student → List Student
  | [] => [x]
  | y :: ys => if cmp_students y x key > 0 then y :: insRevAux key x ys else x :: y :: ys

/-- Insert `x` into the prefix `l`, scanning from the right as the C
`while (j >= 0 && cmp_students(&students[j], &keyStudent, key) > 0)` loop
does. -/
def insertRight (key : SortKey) (x : Student) (l : List Student) : List Student :=
  (insRevAux key x l.reverse).reverse

/-- `insertion_sort` from `main.c`: grow a sorted prefix, inserting each
next element by right-to-left shifting. -/
def insertion_sort (key : SortKey) (l : List Student) : List Student :=
  l.foldl (fun acc x => insertRight key x acc) []

/-- The merge loop of `merge_range` from `main.c`: take from the left run
while it compares `<= 0` with the head of the right run. -/
def mergeLists (key : SortKey) : List Student → List Student → List Student
  | [], r => r
  | a :: l, [] => a :: l
  | a :: l, b :: r =>
    if cmp_students a b key ≤ 0 then a :: mergeLists key l (b :: r)
    else b :: mergeLists key (a :: l) r
termination_by l r => l.length + r.length

/-- `merge_sort_recursive` from `main.c`: split `[left, right]` at
`mid = left + (right-left)/2` — the left half holds `⌈n/2⌉` elements —
sort both halves and merge. -/
def merge_sort_recursive (key : SortKey) (l : List Student) : List Student :=
  if l.length ≤ 1 then l
  else
    mergeLists key
      (merge_sort_recursive key (l.take ((l.length + 1) / 2)))
      (merge_sort_recursive key (l.drop ((l.length + 1) / 2)))
termination_by l.length
decreasing_by
  all_goals simp only [List.length_take, List.length_drop]
  all_goals omega

/-- `sort_students` from `main.c`: no-op on sizes `<= 1`, otherwise
dispatch on the method (the `default` branch also merge-sorts). -/
def sort_students (method : SortMethod) (key : SortKey) (l : List Student) :
    List Student :=
  if l.length ≤ 1 then l
  else
    match method with
    | .BUBBLE => bubble_sort key l
    | .INSERTION => insertion_sort key l
    | .MERGE => merge_sort_recursive key l

/-- Student id read through an `Int` index (the C code indexes
`students[mid]`; within the binary-search precondition the index is always
in range, the default only totalises the function). -/
def idAt (l : List Student) (i : Int) : Int := (l.getD i.toNat defaultStudent).id

/-- `binary_search_by_id_recursive` from `main.c`; the C local
`mid = left + (right - left) / 2` is written out at each use. -/
def binary_search_by_id_recursive (l : List Student) (target_id : Int)
    (left right : Int) : Int :=
  if left > right then -1
  else if idAt l (left + (right - left) / 2) = target_id then
    left + (right - left) / 2
  else if idAt l (left + (right - left) / 2) > target_id then
    binary_search_by_id_recursive l target_id left ((left + (right - left) / 2) - 1)
  else
    binary_search_by_id_recursive l target_id ((left + (right - left) / 2) + 1) right
termination_by (right + 1 - left).toNat
decreasing_by
  all_goals omega

/-- Loop of `class_highest_lowest`: fold over the remaining students with
the running `(highest, h_idx, lowest, l_idx)` state, `i` being the index of
the head of the remaining list; strict comparisons keep the first
occurrence on ties. -/
def chlAux : List Student → Nat → ℚ × Nat × ℚ × Nat → ℚ × Nat × ℚ × Nat
  | [], _, st => st
  | s :: rest, i, (hi, hIdx, lo, lIdx) =>
    let hi' := if s.average > hi then (s.average, i) else (hi, hIdx)
    let lo' := if s.average < lo then (s.average, i) else (lo, lIdx)
    chlAux rest (i + 1) (hi'.1, hi'.2, lo'.1, lo'.2)

/-- `class_highest_lowest` from `main.c`: `none` on an empty store,
otherwise the `(highest, h_idx, lowest, l_idx)` out-parameters of the
single linear scan initialised from student `0`. -/
def class_highest_lowest (l : List Student) : Option (ℚ × Nat × ℚ × Nat) :=
  match l with
  | [] => none
  | s :: rest => some (chlAux rest 1 (s.average, 0, s.average, 0))

/-- The store states reachable through the public mutating interface,
starting from the empty store of `init_students`. -/
inductive Reachable : List Student → Prop where
  | init : Reachable []
  | add (id : Int) (name : String) {l : List Student} :
      Reachable l → Reachable (add_student id name l).2
  | del (id : Int) {l : List Student} :
      Reachable l → Reachable (delete_student id l).2
  | grade (id : Int) (g : ℚ) {l : List Student} :
      Reachable l → Reachable (add_grade_to_student id g l).2
  | rename (id : Int) (name : String) {l : List Student} :
      Reachable l → Reachable (update_student_name id name l).2
  | sort (method : SortMethod) (key : SortKey) {l : List Student} :
      Reachable l → Reachable (sort_students method key l)

/-! ### Lemmas about `index_of_id` -/

theorem indexOfIdAux_of_forall_ne {id : Int} :
    ∀ (l : List Student) (i : Int), (∀ s ∈ l, s.id ≠ id) → indexOfIdAux id l i = -1 := by
  intro l
  induction l with
  | nil => intro i _; rfl
  | cons s rest ih =>
    intro i h
    have hs : s.id ≠ id := h s (by simp)
    simp only [indexOfIdAux, if_neg hs]
    exact ih _ (fun t ht => h t (by simp [ht]))

theorem indexOfIdAux_found {id : Int} (s : Student) (hs : s.id = id) :
    ∀ (l1 l2 : List Student) (i : Int), (∀ t ∈ l1, t.id ≠ id) →
      indexOfIdAux id (l1 ++ s :: l2) i = i + l1.length := by
  intro l1
  induction l1 with
  | nil => intro l2 i _; simp [indexOfIdAux, hs]
  | cons t rest ih =>
    intro l2 i h
    have ht : t.id ≠ id := h t (by simp)
    simp only [List.cons_append, indexOfIdAux, if_neg ht, List.append_eq]
    rw [ih l2 (i + 1) (fun u hu => h u (by simp [hu]))]
    simp only [List.length_cons]
    omega

theorem exists_first_decomp {id : Int} :
    ∀ l : List Student, id ∈ l.map Student.id →
      ∃ l1 s l2, l = l1 ++ s :: l2 ∧ s.id = id ∧ ∀ t ∈ l1, t.id ≠ id := by
  intro l
  induction l with
  | nil => simp
  | cons s rest ih =>
    intro h
    by_cases hs : s.id = id
    · exact ⟨[], s, rest, by simp, hs, by simp⟩
    · have hmem : id ∈ rest.map Student.id := by
        simp only [List.map_cons, List.mem_cons] at h
        rcases h with h | h
        · exact absurd h.symm hs
        · exact h
      obtain ⟨l1, t, l2, he, hid, hne⟩ := ih hmem
      refine ⟨s :: l1, t, l2, by simp [he], hid, ?_⟩
      intro u hu
      rcases List.mem_cons.1 hu with h | h
      · exact h ▸ hs
      · exact hne u h

theorem index_of_id_of_not_mem {l : List Student} {id : Int}
    (h : id ∉ l.map Student.id) : index_of_id l id = -1 :=
  indexOfIdAux_of_forall_ne l 0
    (fun s hs heq => h (List.mem_map.2 ⟨s, hs, heq⟩))

theorem index_of_id_append {id : Int} (s : Student) (hs : s.id = id)
    (l1 l2 : List Student) (h : ∀ t ∈ l1, t.id ≠ id) :
    index_of_id (l1 ++ s :: l2) id = l1.length := by
  unfold index_of_id
  rw [indexOfIdAux_found s hs l1 l2 0 h]
  omega

/-! ### Decomposition lemmas for the store operations -/

theorem add_student_of_mem {l : List Student} {id : Int}
    (h : id ∈ l.map Student.id) (name : String) :
    add_student id name l = (false, l) := by
  obtain ⟨l1, s, l2, rfl, hs, hne⟩ := exists_first_decomp l h
  have h1 : (l1.length : Int) ≠ -1 := by omega
  unfold add_student
  rw [index_of_id_append s hs l1 l2 hne, if_pos h1]

theorem add_student_of_not_mem {l : List Student} {id : Int}
    (h : id ∉ l.map Student.id) (name : String) :
    add_student id name l =
      (true, l ++ [{ id := id, name := truncName name, grades := [], average := 0 }]) := by
  unfold add_student
  rw [index_of_id_of_not_mem h]
  simp

theorem eraseIdx_append_length (l1 : List Student) (s : Student) (l2 : List Student) :
    (l1 ++ s :: l2).eraseIdx l1.length = l1 ++ l2 := by
  induction l1 with
  | nil => rfl
  | cons a t ih => simpa [List.eraseIdx] using ih

theorem delete_student_of_not_mem {l : List Student} {id : Int}
    (h : id ∉ l.map Student.id) : delete_student id l = (false, l) := by
  unfold delete_student
  rw [index_of_id_of_not_mem h]
  simp

theorem delete_student_decomp {id : Int} (s : Student) (hs : s.id = id)
    (l1 l2 : List Student) (hne : ∀ t ∈ l1, t.id ≠ id) :
    delete_student id (l1 ++ s :: l2) = (true, l1 ++ l2) := by
  have h1 : (l1.length : Int) ≠ -1 := by omega
  unfold delete_student
  rw [index_of_id_append s hs l1 l2 hne]
  simp only [if_neg h1, Int.toNat_natCast]
  rw [eraseIdx_append_length]

theorem listModify_append (f : Student → Student) (l1 : List Student) (s : Student)
    (l2 : List Student) : listModify f (l1 ++ s :: l2) l1.length = l1 ++ f s :: l2 := by
  induction l1 with
  | nil => rfl
  | cons a t ih => simpa [listModify] using ih

theorem map_id_listModify (f : Student → Student) (hf : ∀ s, (f s).id = s.id) :
    ∀ (l : List Student) (n : Nat), (listModify f l n).map Student.id = l.map Student.id := by
  intro l
  induction l with
  | nil => intro n; rfl
  | cons s rest ih =>
    intro n
    cases n with
    | zero => simp [listModify, hf]
    | succ n => simp [listModify, ih]

theorem recalc_average_id (s : Student) : (recalc_average s).id = s.id := by
  unfold recalc_average
  split <;> rfl

theorem recalc_average_grades (s : Student) : (recalc_average s).grades = s.grades := by
  unfold recalc_average
  split <;> rfl

theorem add_grade_of_not_mem {l : List Student} {id : Int}
    (h : id ∉ l.map Student.id) (g : ℚ) : add_grade_to_student id g l = (false, l) := by
  unfold add_grade_to_student
  rw [index_of_id_of_not_mem h]
  simp

theorem add_grade_decomp {id : Int} (g : ℚ) (s : Student) (hs : s.id = id)
    (l1 l2 : List Student) (hne : ∀ t ∈ l1, t.id ≠ id) :
    add_grade_to_student id g (l1 ++ s :: l2) =
      (true, l1 ++ recalc_average { s with grades := s.grades ++ [g] } :: l2) := by
  have h1 : (l1.length : Int) ≠ -1 := by omega
  unfold add_grade_to_student
  rw [index_of_id_append s hs l1 l2 hne]
  simp only [if_neg h1, Int.toNat_natCast]
  rw [listModify_append]

theorem update_name_of_not_mem {l : List Student} {id : Int}
    (h : id ∉ l.map Student.id) (name : String) :
    update_student_name id name l = (false, l) := by
  unfold update_student_name
  rw [index_of_id_of_not_mem h]
  simp

theorem update_name_decomp {id : Int} (name : String) (s : Student) (hs : s.id = id)
    (l1 l2 : List Student) (hne : ∀ t ∈ l1, t.id ≠ id) :
    update_student_name id name (l1 ++ s :: l2) =
      (true, l1 ++ { s with name := truncName name } :: l2) := by
  have h1 : (l1.length : Int) ≠ -1 := by omega
  unfold update_student_name
  rw [index_of_id_append s hs l1 l2 hne]
  simp only [if_neg h1, Int.toNat_natCast]
  rw [listModify_append]

theorem add_grade_map_id (id : Int) (g : ℚ) (l : List Student) :
    ((add_grade_to_student id g l).2).map Student.id = l.map Student.id := by
  by_cases h : index_of_id l id = -1
  · unfold add_grade_to_student
    rw [h]
    simp
  · unfold add_grade_to_student
    simp only [if_neg h]
    exact map_id_listModify
      (fun s => recalc_average { s with grades := s.grades ++ [g] })
      (fun s => recalc_average_id _) l _

theorem update_name_map_id (id : Int) (name : String) (l : List Student) :
    ((update_student_name id name l).2).map Student.id = l.map Student.id := by
  by_cases h : index_of_id l id = -1
  · unfold update_student_name
    rw [h]
    simp
  · unfold update_student_name
    simp only [if_neg h]
    exact map_id_listModify (fun s => { s with name := truncName name })
      (fun s => rfl) l _

/-! ### The three sorting methods permute the store -/

theorem bubblePass_perm (key : SortKey) :
    ∀ (k : Nat) (l : List Student), ((bubblePass key l k).1).Perm l := by
  intro k
  induction k with
  | zero => intro l; simp [bubblePass]
  | succ k ih =>
    intro l
    cases l with
    | nil => simp [bubblePass]
    | cons a t =>
      cases t with
      | nil => simp [bubblePass]
      | cons b rest =>
        by_cases hc : cmp_students a b key > 0 <;>
          simp only [bubblePass, if_pos, if_neg, hc, ite_true, ite_false]
        · exact ((ih (a :: rest)).cons b).trans (List.Perm.swap a b rest)
        · exact ((ih (b :: rest)).cons a)

theorem bubbleAux_perm (key : SortKey) :
    ∀ (k : Nat) (l : List Student), (bubbleAux key l k).Perm l := by
  intro k
  induction k with
  | zero => intro l; simp [bubbleAux]
  | succ k ih =>
    intro l
    simp only [bubbleAux]
    split
    · exact (ih _).trans (bubblePass_perm key (k + 1) l)
    · exact bubblePass_perm key (k + 1) l

theorem bubble_sort_perm (key : SortKey) (l : List Student) :
    (bubble_sort key l).Perm l :=
  bubbleAux_perm key (l.length - 1) l

theorem insRevAux_perm (key : SortKey) (x : Student) :
    ∀ l : List Student, (insRevAux key x l).Perm (x :: l) := by
  intro l
  induction l with
  | nil => simp [insRevAux]
  | cons y ys ih =>
    simp only [insRevAux]
    split
    · exact (ih.cons y).trans (List.Perm.swap x y ys)
    · exact List.Perm.refl _

theorem insertRight_perm (key : SortKey) (x : Student) (l : List Student) :
    (insertRight key x l).Perm (x :: l) := by
  unfold insertRight
  exact (List.reverse_perm _).trans
    ((insRevAux_perm key x l.reverse).trans ((List.reverse_perm l).cons x))

theorem insertFold_perm (key : SortKey) :
    ∀ (l acc : List Student),
      (l.foldl (fun acc x => insertRight key x acc) acc).Perm (acc ++ l) := by
  intro l
  induction l with
  | nil => intro acc; simp
  | cons x xs ih =>
    intro acc
    simp only [List.foldl_cons]
    refine (ih (insertRight key x acc)).trans ?_
    refine ((insertRight_perm key x acc).append_right xs).trans ?_
    exact List.perm_middle.symm

theorem insertion_sort_perm (key : SortKey) (l : List Student) :
    (insertion_sort key l).Perm l := by
  simpa using insertFold_perm key l []

theorem mergeLists_perm (key : SortKey) :
    ∀ l r : List Student, (mergeLists key l r).Perm (l ++ r) := by
  intro l
  induction l with
  | nil => intro r; simp [mergeLists]
  | cons a l ihl =>
    intro r
    induction r with
    | nil => simp [mergeLists]
    | cons b r ihr =>
      simp only [mergeLists]
      split
      · exact (ihl (b :: r)).cons a
      · exact (ihr.cons b).trans List.perm_middle.symm

theorem merge_sort_perm_aux (key : SortKey) :
    ∀ (n : Nat) (l : List Student), l.length ≤ n →
      (merge_sort_recursive key l).Perm l := by
  intro n
  induction n with
  | zero =>
    intro l h
    have hl : l = [] := List.length_eq_zero.1 (by omega)
    subst hl
    rw [merge_sort_recursive]
    simp
  | succ n ih =>
    intro l h
    rw [merge_sort_recursive]
    split
    · exact List.Perm.refl l
    · rename_i h2
      have ht := ih (l.take ((l.length + 1) / 2)) (by simp; omega)
      have hd := ih (l.drop ((l.length + 1) / 2)) (by simp; omega)
      refine (mergeLists_perm key _ _).trans ?_
      refine (ht.append hd).trans ?_
      rw [List.take_append_drop]

theorem merge_sort_recursive_perm (key : SortKey) (l : List Student) :
    (merge_sort_recursive key l).Perm l :=
  merge_sort_perm_aux key l.length l le_rfl

theorem sort_students_perm (method : SortMethod) (key : SortKey) (l : List Student) :
    (sort_students method key l).Perm l := by
  unfold sort_students
  split
  · exact List.Perm.refl l
  · cases method with
    | BUBBLE => exact bubble_sort_perm key l
    | INSERTION => exact insertion_sort_perm key l
    | MERGE => exact merge_sort_recursive_perm key l

/-! ### The pairwise-distinct-ids invariant -/

theorem reachable_nodup_ids {l : List Student} (h : Reachable l) :
    (l.map Student.id).Nodup := by
  induction h with
  | init => simp
  | add id name _ ih =>
    by_cases hm : id ∈ ‹List Student›.map Student.id
    · rw [add_student_of_mem hm name]
      exact ih
    · rw [add_student_of_not_mem hm name]
      simp only [List.map_append, List.map_cons, List.map_nil]
      simp [List.nodup_append, ih, hm]
  | del id _ ih =>
    by_cases hm : id ∈ ‹List Student›.map Student.id
    · obtain ⟨l1, s, l2, rfl, hs, hne⟩ := exists_first_decomp _ hm
      rw [delete_student_decomp s hs l1 l2 hne]
      have hsub : (l1 ++ l2).Sublist (l1 ++ s :: l2) :=
        List.Sublist.append_left (List.sublist_cons_self s l2) l1
      exact (hsub.map Student.id).nodup ih
    · rw [delete_student_of_not_mem hm]
      exact ih
  | grade id g _ ih =>
    rw [add_grade_map_id]
    exact ih
  | rename id name _ ih =>
    rw [update_name_map_id]
    exact ih
  | sort method key _ ih =>
    exact (((sort_students_perm method key _).map Student.id).nodup_iff).2 ih

/-- C1: in every reachable store state (hence at all times, under any
sequence of `add_student` calls) the records' ids are pairwise distinct,
and `add_student` with an id already present returns `false` and leaves
the store (contents, order, and hence count) completely unchanged. -/
theorem add_student_uniqueness :
    (∀ l : List Student, Reachable l → (l.map Student.id).Nodup) ∧
    (∀ (l : List Student) (id : Int) (name : String),
      id ∈ l.map Student.id → add_student id name l = (false, l)) :=
  ⟨fun _ h => reachable_nodup_ids h,
   fun _ _ name h => add_student_of_mem h name⟩

/-- Witness for C1 at concrete inputs: the store reached by
`add 1 "A"; add 2 "B"` has distinct ids, and re-adding id `1` fails and
leaves the two-student store unchanged. -/
theorem add_student_uniqueness_witness :
    (((add_student 2 "B" (add_student 1 "A" []).2).2.map Student.id).Nodup) ∧
    add_student 1 "C" [⟨1, "A", [], 0⟩, ⟨2, "B", [], 0⟩] =
      (false, [⟨1, "A", [], 0⟩, ⟨2, "B", [], 0⟩]) :=
  ⟨add_student_uniqueness.1 _ ((Reachable.init.add 1 "A").add 2 "B"),
   add_student_uniqueness.2 [⟨1, "A", [], 0⟩, ⟨2, "B", [], 0⟩] 1 "C" (by decide)⟩

/-- C10: every sort (any method, any key) produces a permutation of the
pre-sort records — no record is lost, duplicated, or modified in any
field, the count is unchanged, and pairwise-distinct ids are preserved. -/
theorem sort_students_permutation :
    ∀ (method : SortMethod) (key : SortKey) (l : List Student),
      (sort_students method key l).Perm l ∧
      (sort_students method key l).length = l.length ∧
      ((l.map Student.id).Nodup → ((sort_students method key l).map Student.id).Nodup) :=
  fun method key l =>
    ⟨sort_students_perm method key l,
     (sort_students_perm method key l).length_eq,
     fun h => (((sort_students_perm method key l).map Student.id).nodup_iff).2 h⟩

/-- Witness for C10: bubble-sorting a concrete two-student store by id
preserves distinctness of the ids. -/
theorem sort_students_permutation_witness :
    (([⟨2, "B", [], 0⟩, ⟨1, "A", [], 0⟩] : List Student).map Student.id).Nodup ∧
    ((sort_students .BUBBLE .SORT_BY_ID
        [⟨2, "B", [], 0⟩, ⟨1, "A", [], 0⟩]).map Student.id).Nodup :=
  ⟨by decide,
   (sort_students_permutation .BUBBLE .SORT_BY_ID
      [⟨2, "B", [], 0⟩, ⟨1, "A", [], 0⟩]).2.2 (by decide)⟩

/-- C6: `delete_student` returns `false` and leaves the store unchanged
when the id is absent; otherwise it removes exactly the (first) record
with that id and keeps every remaining record in its original relative
order (shift-left semantics). -/
theorem delete_student_spec :
    ∀ (l : List Student) (id : Int),
      (id ∉ l.map Student.id → delete_student id l = (false, l)) ∧
      (id ∈ l.map Student.id →
        ∃ l1 s l2, l = l1 ++ s :: l2 ∧ s.id = id ∧ (∀ t ∈ l1, t.id ≠ id) ∧
          delete_student id l = (true, l1 ++ l2)) := by
  intro l id
  constructor
  · intro h
    exact delete_student_of_not_mem h
  · intro h
    obtain ⟨l1, s, l2, rfl, hs, hne⟩ := exists_first_decomp l h
    exact ⟨l1, s, l2, rfl, hs, hne, delete_student_decomp s hs l1 l2 hne⟩

/-- Witness for C6 at concrete inputs: deleting id `9` from a store not
containing it fails and changes nothing; deleting id `1` from a
three-student store removes exactly that record. -/
theorem delete_student_spec_witness :
    delete_student 9 [⟨2, "B", [], 0⟩] = (false, [⟨2, "B", [], 0⟩]) ∧
    (∃ l1 s l2,
      ([⟨2, "B", [], 0⟩, ⟨1, "A", [], 0⟩, ⟨3, "C", [], 0⟩] : List Student) =
        l1 ++ s :: l2 ∧ s.id = 1 ∧ (∀ t ∈ l1, t.id ≠ 1) ∧
      delete_student 1 [⟨2, "B", [], 0⟩, ⟨1, "A", [], 0⟩, ⟨3, "C", [], 0⟩] =
        (true, l1 ++ l2)) :=
  ⟨(delete_student_spec [⟨2, "B", [], 0⟩] 9).1 (by decide),
   (delete_student_spec [⟨2, "B", [], 0⟩, ⟨1, "A", [], 0⟩, ⟨3, "C", [], 0⟩] 1).2
      (by decide)⟩

/-- C5 fails on the code: the by-id comparator is the 32-bit subtraction
`a->id - b->id`, which overflows; comparing a store holding ids
`INT_MAX` and `INT_MIN` (in that order) the comparator wrongly returns
`-1`, every sort method leaves the store unchanged, and the result is not
in ascending id order. -/
theorem sort_by_id_overflow_not_ascending :
    (∀ method : SortMethod,
      sort_students method .SORT_BY_ID
          [⟨2147483647, "", [], 0⟩, ⟨-2147483648, "", [], 0⟩] =
        [⟨2147483647, "", [], 0⟩, ⟨-2147483648, "", [], 0⟩]) ∧
    cmp_students ⟨2147483647, "", [], 0⟩ ⟨-2147483648, "", [], 0⟩ .SORT_BY_ID = -1 ∧
    ¬ (2147483647 : Int) ≤ -2147483648 := by
  refine ⟨fun method => ?_, by decide, by decide⟩
  cases method with
  | BUBBLE => decide
  | INSERTION => decide
  | MERGE => simp [sort_students, merge_sort_recursive, mergeLists, cmp_students, wrap32]

/-- C9 fails on the code: with the overflowing by-id comparator, merge
sort is not idempotent. Sorting the store with ids
`[-1610612736, 1073741824, 0]` by id once yields id order
`[0, 1073741824, -1610612736]`; sorting that result again yields
`[-1610612736, 0, 1073741824]`, a different order. -/
theorem sort_twice_differs :
    ((sort_students .MERGE .SORT_BY_ID
        [⟨-1610612736, "", [], 0⟩, ⟨1073741824, "", [], 0⟩, ⟨0, "", [], 0⟩]).map
        Student.id) = [0, 1073741824, -1610612736] ∧
    ((sort_students .MERGE .SORT_BY_ID
        (sort_students .MERGE .SORT_BY_ID
          [⟨-1610612736, "", [], 0⟩, ⟨1073741824, "", [], 0⟩, ⟨0, "", [], 0⟩])).map
        Student.id) = [-1610612736, 0, 1073741824] ∧
    sort_students .MERGE .SORT_BY_ID
        (sort_students .MERGE .SORT_BY_ID
          [⟨-1610612736, "", [], 0⟩, ⟨1073741824, "", [], 0⟩, ⟨0, "", [], 0⟩]) ≠
      sort_students .MERGE .SORT_BY_ID
        [⟨-1610612736, "", [], 0⟩, ⟨1073741824, "", [], 0⟩, ⟨0, "", [], 0⟩] := by
  refine ⟨?_, ?_, ?_⟩ <;>
    simp [sort_students, merge_sort_recursive, mergeLists, cmp_students, wrap32]

/-! ### Summation and average consistency -/

theorem sum_grades_recursive_eq_sum_aux :
    ∀ (n : Nat) (l : List ℚ), l.length ≤ n → sum_grades_recursive l = l.sum := by
  intro n
  induction n with
  | zero =>
    intro l h
    have hl : l = [] := List.length_eq_zero.1 (by omega)
    subst hl
    rw [sum_grades_recursive]
    simp
  | succ n ih =>
    intro l h
    rw [sum_grades_recursive]
    split
    · rename_i h1
      cases l with
      | nil => simp
      | cons a t =>
        cases t with
        | nil => simp
        | cons b u => simp at h1
    · rename_i h1
      rw [ih _ (by simp; omega), ih _ (by simp; omega)]
      rw [← List.sum_append, List.take_append_drop]

theorem sum_grades_recursive_eq_sum (l : List ℚ) : sum_grades_recursive l = l.sum :=
  sum_grades_recursive_eq_sum_aux l.length l le_rfl

/-- The specification's comparison point for the refinement claim:
naive left-to-right sequential summation of the grade sequence. -/
def sum_left_to_right (l : List ℚ) : ℚ := l.foldl (fun a b => a + b) 0

theorem foldl_add_eq (l : List ℚ) : ∀ a : ℚ, l.foldl (fun x y => x + y) a = a + l.sum := by
  induction l with
  | nil => intro a; simp
  | cons x t ih =>
    intro a
    simp only [List.foldl_cons, List.sum_cons, ih]
    ring

/-- C8: `sum_grades_recursive` satisfies the divide-and-conquer recurrence
(base cases for 0 and 1 elements are part of its definition; for longer
sequences it splits at the midpoint `n / 2` and adds the two partial
sums), and its result equals naive left-to-right sequential summation. -/
theorem sum_grades_divide_and_conquer_eq_sequential :
    (∀ l : List ℚ, 2 ≤ l.length →
      sum_grades_recursive l =
        sum_grades_recursive (l.take (l.length / 2)) +
          sum_grades_recursive (l.drop (l.length / 2))) ∧
    (∀ l : List ℚ, sum_grades_recursive l = sum_left_to_right l) := by
  constructor
  · intro l h
    rw [sum_grades_recursive]
    rw [if_neg (by omega)]
  · intro l
    rw [sum_grades_recursive_eq_sum]
    unfold sum_left_to_right
    rw [foldl_add_eq]
    simp

/-- Witness for C8 at the concrete grade sequence `[1, 2, 3]`. -/
theorem sum_grades_divide_and_conquer_witness :
    2 ≤ ([(1 : ℚ), 2, 3]).length ∧
    sum_grades_recursive [(1 : ℚ), 2, 3] =
      sum_grades_recursive (([(1 : ℚ), 2, 3]).take (([(1 : ℚ), 2, 3]).length / 2)) +
        sum_grades_recursive (([(1 : ℚ), 2, 3]).drop (([(1 : ℚ), 2, 3]).length / 2)) :=
  ⟨by simp, sum_grades_divide_and_conquer_eq_sequential.1 [(1 : ℚ), 2, 3] (by simp)⟩

theorem index_of_id_eq_neg_one_iff (l : List Student) (id : Int) :
    index_of_id l id = -1 ↔ id ∉ l.map Student.id := by
  constructor
  · intro h hm
    obtain ⟨l1, s, l2, rfl, hs, hne⟩ := exists_first_decomp l hm
    rw [index_of_id_append s hs l1 l2 hne] at h
    omega
  · exact index_of_id_of_not_mem

/-- Average consistency of a single record: the `average` field is the
arithmetic mean of `grades` and exactly `0` when `grades` is empty. -/
def avgConsistent (s : Student) : Prop :=
  s.average = if s.grades = [] then 0 else s.grades.sum / (s.grades.length : ℚ)

theorem avgConsistent_recalc (t : Student) : avgConsistent (recalc_average t) := by
  unfold recalc_average avgConsistent
  split
  · rename_i h
    have hnil : t.grades = [] := List.length_eq_zero.1 h
    simp [hnil]
  · rename_i h
    have hne : t.grades ≠ [] := by
      intro he
      rw [he] at h
      simp at h
    simp [hne, sum_grades_recursive_eq_sum]

theorem mem_listModify {f : Student → Student} :
    ∀ {l : List Student} {n : Nat} {x : Student}, x ∈ listModify f l n →
      x ∈ l ∨ ∃ t, t ∈ l ∧ x = f t := by
  intro l
  induction l with
  | nil =>
    intro n x h
    simp [listModify] at h
  | cons s rest ih =>
    intro n x h
    cases n with
    | zero =>
      simp only [listModify, List.mem_cons] at h
      rcases h with h | h
      · exact .inr ⟨s, by simp, h⟩
      · exact .inl (List.mem_cons_of_mem _ h)
    | succ n =>
      simp only [listModify, List.mem_cons] at h
      rcases h with h | h
      · exact .inl (by simp [h])
      · rcases ih h with h | ⟨t, ht, he⟩
        · exact .inl (List.mem_cons_of_mem _ h)
        · exact .inr ⟨t, List.mem_cons_of_mem _ ht, he⟩

theorem reachable_avgConsistent {l : List Student} (h : Reachable l) :
    ∀ s ∈ l, avgConsistent s := by
  induction h with
  | init => simp
  | add id name hr ih =>
    by_cases hm : id ∈ ‹List Student›.map Student.id
    · rw [add_student_of_mem hm name]
      exact ih
    · rw [add_student_of_not_mem hm name]
      intro s hs
      rcases List.mem_append.1 hs with h | h
      · exact ih s h
      · have he : s = ⟨id, truncName name, [], 0⟩ := by simpa using h
        subst he
        simp [avgConsistent]
  | del id hr ih =>
    by_cases hm : id ∈ ‹List Student›.map Student.id
    · obtain ⟨l1, s, l2, rfl, hs, hne⟩ := exists_first_decomp _ hm
      rw [delete_student_decomp s hs l1 l2 hne]
      intro t ht
      rcases List.mem_append.1 ht with h | h
      · exact ih t (List.mem_append.2 (.inl h))
      · exact ih t (List.mem_append.2 (.inr (List.mem_cons_of_mem _ h)))
    · rw [delete_student_of_not_mem hm]
      exact ih
  | grade id g hr ih =>
    rename_i l'
    by_cases h' : index_of_id l' id = -1
    · have he : (add_grade_to_student id g l').2 = l' := by
        simp [add_grade_to_student, h']
      rw [he]
      exact ih
    · intro s hs
      have he : (add_grade_to_student id g l').2 =
          listModify (fun s => recalc_average { s with grades := s.grades ++ [g] })
            l' (index_of_id l' id).toNat := by
        simp [add_grade_to_student, h']
      rw [he] at hs
      rcases mem_listModify hs with h | ⟨t, ht, hx⟩
      · exact ih s h
      · exact hx ▸ avgConsistent_recalc _
  | rename id name hr ih =>
    rename_i l'
    by_cases h' : index_of_id l' id = -1
    · have he : (update_student_name id name l').2 = l' := by
        simp [update_student_name, h']
      rw [he]
      exact ih
    · intro s hs
      have he : (update_student_name id name l').2 =
          listModify (fun s => { s with name := truncName name })
            l' (index_of_id l' id).toNat := by
        simp [update_student_name, h']
      rw [he] at hs
      rcases mem_listModify hs with h | ⟨t, ht, hx⟩
      · exact ih s h
      · subst hx
        have := ih t ht
        simpa [avgConsistent] using this
  | sort method key hr ih =>
    intro s hs
    exact ih s ((sort_students_perm method key _).subset hs)

/-- C2: in every reachable store — hence after any sequence of
`add_grade_to_student` calls — every student's `average` equals the
arithmetic mean of its grades (sum divided by count) and is exactly `0`
when it has no grades; `add_grade_to_student` returns `false` exactly when
the id is absent, and when the id is present it appends the grade to that
student's sequence and synchronously recomputes the average. -/
theorem add_grade_average_consistency :
    (∀ l : List Student, Reachable l → ∀ s ∈ l, avgConsistent s) ∧
    (∀ (l : List Student) (id : Int) (g : ℚ),
      (add_grade_to_student id g l).1 = false ↔ id ∉ l.map Student.id) ∧
    (∀ (id : Int) (g : ℚ) (s : Student) (l1 l2 : List Student),
      s.id = id → (∀ t ∈ l1, t.id ≠ id) →
      add_grade_to_student id g (l1 ++ s :: l2) =
        (true, l1 ++ recalc_average { s with grades := s.grades ++ [g] } :: l2)) := by
  refine ⟨fun l h => reachable_avgConsistent h, fun l id g => ?_,
    fun id g s l1 l2 hs hne => add_grade_decomp g s hs l1 l2 hne⟩
  by_cases h' : index_of_id l id = -1
  · have hnm : id ∉ l.map Student.id := (index_of_id_eq_neg_one_iff l id).1 h'
    have hres : (add_grade_to_student id g l).1 = false := by
      simp [add_grade_to_student, h']
    exact iff_of_true hres hnm
  · have hm : id ∈ l.map Student.id := by
      by_contra hq
      exact h' (index_of_id_of_not_mem hq)
    have hres : (add_grade_to_student id g l).1 = true := by
      simp [add_grade_to_student, h']
    constructor
    · intro hf
      rw [hres] at hf
      simp at hf
    · intro hn
      exact absurd hm hn

/-- Witness for C2 at concrete inputs: the freshly added student has a
consistent (zero) average, adding a grade to an empty store fails, and
adding grade `80` to student `1` appends it and recomputes. -/
theorem add_grade_average_consistency_witness :
    avgConsistent ⟨1, truncName "A", [], 0⟩ ∧
    ((add_grade_to_student 5 7 ([] : List Student)).1 = false ↔
      (5 : Int) ∉ ([] : List Student).map Student.id) ∧
    add_grade_to_student 1 80 [⟨1, "A", [], 0⟩] =
      (true, [recalc_average ⟨1, "A", [80], 0⟩]) :=
  ⟨add_grade_average_consistency.1 _ (Reachable.init.add 1 "A") _
      (by rw [add_student_of_not_mem (by simp)]; simp),
   add_grade_average_consistency.2.1 [] 5 7,
   by
     have h := add_grade_average_consistency.2.2 1 80 ⟨1, "A", [], 0⟩ [] [] rfl
       (by simp)
     simpa using h⟩

/-! ### Highest and lowest average (single pass, first occurrence wins) -/

theorem getD_append_length (pre : List Student) (s : Student) (suf : List Student) :
    (pre ++ s :: suf).getD pre.length defaultStudent = s := by
  induction pre with
  | nil => rfl
  | cons a t ih => simpa [List.getD_cons_succ] using ih

/-- Invariant of the `class_highest_lowest` scan after the first `i`
records have been processed: the running `(highest, h_idx, lowest, l_idx)`
state records the maximum and minimum averages among indices `< i`,
each held at the index of its first occurrence. -/
def chlInv (l : List Student) (i : Nat) (hi : ℚ) (hIdx : Nat) (lo : ℚ) (lIdx : Nat) :
    Prop :=
  hIdx < i ∧ (l.getD hIdx defaultStudent).average = hi ∧
  (∀ j < i, (l.getD j defaultStudent).average ≤ hi) ∧
  (∀ j < hIdx, (l.getD j defaultStudent).average < hi) ∧
  lIdx < i ∧ (l.getD lIdx defaultStudent).average = lo ∧
  (∀ j < i, lo ≤ (l.getD j defaultStudent).average) ∧
  (∀ j < lIdx, lo < (l.getD j defaultStudent).average)

theorem chlAux_invariant :
    ∀ (rest pre : List Student) (hi : ℚ) (hIdx : Nat) (lo : ℚ) (lIdx : Nat),
      chlInv (pre ++ rest) pre.length hi hIdx lo lIdx →
      chlInv (pre ++ rest) (pre ++ rest).length
        (chlAux rest pre.length (hi, hIdx, lo, lIdx)).1
        (chlAux rest pre.length (hi, hIdx, lo, lIdx)).2.1
        (chlAux rest pre.length (hi, hIdx, lo, lIdx)).2.2.1
        (chlAux rest pre.length (hi, hIdx, lo, lIdx)).2.2.2 := by
  intro rest
  induction rest with
  | nil =>
    intro pre hi hIdx lo lIdx h
    simpa [chlAux] using h
  | cons s rest ih =>
    intro pre hi hIdx lo lIdx h
    unfold chlInv at h
    obtain ⟨h1, h2, h3, h4, h5, h6, h7, h8⟩ := h
    have hs : (pre ++ s :: rest).getD pre.length defaultStudent = s :=
      getD_append_length pre s rest
    have happ : (pre ++ [s]) ++ rest = pre ++ s :: rest := by simp
    have hlen : (pre ++ [s]).length = pre.length + 1 := by simp
    by_cases hgt : s.average > hi <;> by_cases hlt : s.average < lo
    · simp only [chlAux, if_pos hgt, if_pos hlt]
      have key := ih (pre ++ [s]) s.average pre.length s.average pre.length ?_
      · rw [happ, hlen] at key
        exact key
      · rw [happ, hlen]
        unfold chlInv
        refine ⟨by omega, by rw [hs], ?_, ?_, by omega, by rw [hs], ?_, ?_⟩
        · intro j hj
          rcases Nat.lt_succ_iff_lt_or_eq.1 hj with hj | hj
          · exact le_of_lt (lt_of_le_of_lt (h3 j hj) hgt)
          · subst hj; rw [hs]
        · intro j hj
          exact lt_of_le_of_lt (h3 j hj) hgt
        · intro j hj
          rcases Nat.lt_succ_iff_lt_or_eq.1 hj with hj | hj
          · exact le_of_lt (lt_of_lt_of_le hlt (h7 j hj))
          · subst hj; rw [hs]
        · intro j hj
          exact lt_of_lt_of_le hlt (h7 j hj)
    · simp only [chlAux, if_pos hgt, if_neg hlt]
      have key := ih (pre ++ [s]) s.average pre.length lo lIdx ?_
      · rw [happ, hlen] at key
        exact key
      · rw [happ, hlen]
        unfold chlInv
        refine ⟨by omega, by rw [hs], ?_, ?_, by omega, h6, ?_, h8⟩
        · intro j hj
          rcases Nat.lt_succ_iff_lt_or_eq.1 hj with hj | hj
          · exact le_of_lt (lt_of_le_of_lt (h3 j hj) hgt)
          · subst hj; rw [hs]
        · intro j hj
          exact lt_of_le_of_lt (h3 j hj) hgt
        · intro j hj
          rcases Nat.lt_succ_iff_lt_or_eq.1 hj with hj | hj
          · exact h7 j hj
          · subst hj; rw [hs]; exact not_lt.1 hlt
    · simp only [chlAux, if_neg hgt, if_pos hlt]
      have key := ih (pre ++ [s]) hi hIdx s.average pre.length ?_
      · rw [happ, hlen] at key
        exact key
      · rw [happ, hlen]
        unfold chlInv
        refine ⟨by omega, h2, ?_, h4, by omega, by rw [hs], ?_, ?_⟩
        · intro j hj
          rcases Nat.lt_succ_iff_lt_or_eq.1 hj with hj | hj
          · exact h3 j hj
          · subst hj; rw [hs]; exact not_lt.1 hgt
        · intro j hj
          rcases Nat.lt_succ_iff_lt_or_eq.1 hj with hj | hj
          · exact le_of_lt (lt_of_lt_of_le hlt (h7 j hj))
          · subst hj; rw [hs]
        · intro j hj
          exact lt_of_lt_of_le hlt (h7 j hj)
    · simp only [chlAux, if_neg hgt, if_neg hlt]
      have key := ih (pre ++ [s]) hi hIdx lo lIdx ?_
      · rw [happ, hlen] at key
        exact key
      · rw [happ, hlen]
        unfold chlInv
        refine ⟨by omega, h2, ?_, h4, by omega, h6, ?_, h8⟩
        · intro j hj
          rcases Nat.lt_succ_iff_lt_or_eq.1 hj with hj | hj
          · exact h3 j hj
          · subst hj; rw [hs]; exact not_lt.1 hgt
        · intro j hj
          rcases Nat.lt_succ_iff_lt_or_eq.1 hj with hj | hj
          · exact h7 j hj
          · subst hj; rw [hs]; exact not_lt.1 hlt

/-- C7: on a non-empty store `class_highest_lowest` returns the highest
average together with the index of the first record attaining it (earlier
records are strictly below it, and later records with an equal average do
not overwrite it), and likewise the lowest average with its first index;
on the empty store it returns the empty result. -/
theorem class_highest_lowest_spec :
    ∀ l : List Student,
      (l = [] → class_highest_lowest l = none) ∧
      (l ≠ [] → ∃ hi hIdx lo lIdx,
        class_highest_lowest l = some (hi, hIdx, lo, lIdx) ∧
        hIdx < l.length ∧ (l.getD hIdx defaultStudent).average = hi ∧
        (∀ j < l.length, (l.getD j defaultStudent).average ≤ hi) ∧
        (∀ j < hIdx, (l.getD j defaultStudent).average < hi) ∧
        lIdx < l.length ∧ (l.getD lIdx defaultStudent).average = lo ∧
        (∀ j < l.length, lo ≤ (l.getD j defaultStudent).average) ∧
        (∀ j < lIdx, lo < (l.getD j defaultStudent).average)) := by
  intro l
  constructor
  · intro h
    subst h
    rfl
  · intro h
    cases l with
    | nil => exact absurd rfl h
    | cons s rest =>
      have hinv : chlInv ([s] ++ rest) [s].length s.average 0 s.average 0 := by
        show chlInv (s :: rest) 1 s.average 0 s.average 0
        unfold chlInv
        refine ⟨by omega, by simp, ?_, ?_, by omega, by simp, ?_, ?_⟩
        · intro j hj
          have hj0 : j = 0 := by omega
          subst hj0
          simp
        · intro j hj
          exact absurd hj (by omega)
        · intro j hj
          have hj0 : j = 0 := by omega
          subst hj0
          simp
        · intro j hj
          exact absurd hj (by omega)
      have key := chlAux_invariant rest [s] s.average 0 s.average 0 hinv
      have key2 : chlInv (s :: rest) (s :: rest).length
          (chlAux rest 1 (s.average, 0, s.average, 0)).1
          (chlAux rest 1 (s.average, 0, s.average, 0)).2.1
          (chlAux rest 1 (s.average, 0, s.average, 0)).2.2.1
          (chlAux rest 1 (s.average, 0, s.average, 0)).2.2.2 := by
        simpa using key
      obtain ⟨k1, k2, k3, k4, k5, k6, k7, k8⟩ := key2
      exact ⟨_, _, _, _, rfl, k1, k2, k3, k4, k5, k6, k7, k8⟩

/-- Witness for C7: the empty store yields `none`, and on a concrete
two-student store the scan yields the stated first-occurrence extrema. -/
theorem class_highest_lowest_spec_witness :
    class_highest_lowest ([] : List Student) = none ∧
    (∃ hi hIdx lo lIdx,
      class_highest_lowest [⟨2, "B", [], 85⟩, ⟨5, "E", [], 60⟩] =
        some (hi, hIdx, lo, lIdx) ∧
      hIdx < ([⟨2, "B", [], 85⟩, ⟨5, "E", [], 60⟩] : List Student).length ∧
      (([⟨2, "B", [], 85⟩, ⟨5, "E", [], 60⟩] : List Student).getD hIdx
          defaultStudent).average = hi ∧
      (∀ j < ([⟨2, "B", [], 85⟩, ⟨5, "E", [], 60⟩] : List Student).length,
        (([⟨2, "B", [], 85⟩, ⟨5, "E", [], 60⟩] : List Student).getD j
            defaultStudent).average ≤ hi) ∧
      (∀ j < hIdx,
        (([⟨2, "B", [], 85⟩, ⟨5, "E", [], 60⟩] : List Student).getD j
            defaultStudent).average < hi) ∧
      lIdx < ([⟨2, "B", [], 85⟩, ⟨5, "E", [], 60⟩] : List Student).length ∧
      (([⟨2, "B", [], 85⟩, ⟨5, "E", [], 60⟩] : List Student).getD lIdx
          defaultStudent).average = lo ∧
      (∀ j < ([⟨2, "B", [], 85⟩, ⟨5, "E", [], 60⟩] : List Student).length,
        lo ≤ (([⟨2, "B", [], 85⟩, ⟨5, "E", [], 60⟩] : List Student).getD j
            defaultStudent).average) ∧
      (∀ j < lIdx,
        lo < (([⟨2, "B", [], 85⟩, ⟨5, "E", [], 60⟩] : List Student).getD j
            defaultStudent).average)) :=
  ⟨(class_highest_lowest_spec []).1 rfl,
   (class_highest_lowest_spec [⟨2, "B", [], 85⟩, ⟨5, "E", [], 60⟩]).2 (by simp)⟩

/-! ### Stability of the three sorts under the by-average key -/

theorem cmp_avg_pos {a b : Student} (h : cmp_students a b .SORT_BY_AVG > 0) :
    b.average < a.average := by
  simp only [cmp_students] at h
  split_ifs at h with h1 h2
  · omega
  · exact h2
  · omega

theorem cmp_avg_le_iff (a b : Student) :
    cmp_students a b .SORT_BY_AVG ≤ 0 ↔ a.average ≤ b.average := by
  simp only [cmp_students]
  split_ifs with h1 h2
  · simp [le_of_lt h1]
  · simp [not_le.2 h2]
  · simp [le_of_not_lt h2]

/-- Boolean test for "this record's average equals `q`", used to state
stability as preservation of the subsequence of equal-average records. -/
def avgEq (q : ℚ) (s : Student) : Bool := decide (s.average = q)

theorem bubblePass_filter (q : ℚ) :
    ∀ (k : Nat) (l : List Student),
      ((bubblePass .SORT_BY_AVG l k).1).filter (avgEq q) = l.filter (avgEq q) := by
  intro k
  induction k with
  | zero => intro l; simp [bubblePass]
  | succ k ih =>
    intro l
    cases l with
    | nil => simp [bubblePass]
    | cons a t =>
      cases t with
      | nil => simp [bubblePass]
      | cons b rest =>
        by_cases hc : cmp_students a b .SORT_BY_AVG > 0
        · have hba := cmp_avg_pos hc
          simp only [bubblePass, if_pos hc]
          by_cases pa : a.average = q <;> by_cases pb : b.average = q
          · exfalso
            rw [pa, pb] at hba
            exact lt_irrefl q hba
          · simp [List.filter_cons, avgEq, pa, pb, ih]
          · simp [List.filter_cons, avgEq, pa, pb, ih]
          · simp [List.filter_cons, avgEq, pa, pb, ih]
        · simp only [bubblePass, if_neg hc]
          simp [List.filter_cons, ih]

theorem bubbleAux_filter (q : ℚ) :
    ∀ (k : Nat) (l : List Student),
      (bubbleAux .SORT_BY_AVG l k).filter (avgEq q) = l.filter (avgEq q) := by
  intro k
  induction k with
  | zero => intro l; simp [bubbleAux]
  | succ k ih =>
    intro l
    simp only [bubbleAux]
    split
    · rw [ih, bubblePass_filter]
    · rw [bubblePass_filter]

theorem bubble_sort_filter (q : ℚ) (l : List Student) :
    (bubble_sort .SORT_BY_AVG l).filter (avgEq q) = l.filter (avgEq q) :=
  bubbleAux_filter q (l.length - 1) l

theorem insRevAux_filter (q : ℚ) (x : Student) :
    ∀ m : List Student,
      (insRevAux .SORT_BY_AVG x m).filter (avgEq q) =
        (if avgEq q x then [x] else []) ++ m.filter (avgEq q) := by
  intro m
  induction m with
  | nil => cases hpx : avgEq q x <;> simp [insRevAux, List.filter_cons, hpx]
  | cons y ys ih =>
    by_cases hc : cmp_students y x .SORT_BY_AVG > 0
    · have hxy := cmp_avg_pos hc
      simp only [insRevAux, if_pos hc]
      by_cases px : x.average = q
      · have py : ¬ y.average = q := by
          intro hy
          rw [px, hy] at hxy
          exact lt_irrefl q hxy
        simp [List.filter_cons, avgEq, px, py, ih]
      · simp [List.filter_cons, avgEq, px, ih]
    · simp only [insRevAux, if_neg hc]
      by_cases px : x.average = q <;> simp [List.filter_cons, avgEq, px]

theorem insertRight_filter (q : ℚ) (x : Student) (l : List Student) :
    (insertRight .SORT_BY_AVG x l).filter (avgEq q) =
      l.filter (avgEq q) ++ (if avgEq q x then [x] else []) := by
  unfold insertRight
  rw [List.filter_reverse, insRevAux_filter, List.reverse_append,
    List.filter_reverse, List.reverse_reverse]
  congr 1
  split <;> rfl

theorem insertFold_filter (q : ℚ) :
    ∀ (l acc : List Student),
      ((l.foldl (fun acc x => insertRight .SORT_BY_AVG x acc) acc).filter (avgEq q)) =
        acc.filter (avgEq q) ++ l.filter (avgEq q) := by
  intro l
  induction l with
  | nil => intro acc; simp
  | cons x xs ih =>
    intro acc
    simp only [List.foldl_cons]
    rw [ih, insertRight_filter, List.append_assoc]
    congr 1
    cases hv : avgEq q x <;> simp [List.filter_cons, hv]

theorem insertion_sort_filter (q : ℚ) (l : List Student) :
    (insertion_sort .SORT_BY_AVG l).filter (avgEq q) = l.filter (avgEq q) := by
  unfold insertion_sort
  rw [insertFold_filter]
  simp

theorem mergeLists_pairwise :
    ∀ l r : List Student,
      l.Pairwise (fun a b => a.average ≤ b.average) →
      r.Pairwise (fun a b => a.average ≤ b.average) →
      (mergeLists .SORT_BY_AVG l r).Pairwise (fun a b => a.average ≤ b.average) := by
  intro l
  induction l with
  | nil => intro r _ hr; simpa [mergeLists] using hr
  | cons a l ihl =>
    intro r
    induction r with
    | nil => intro hl _; simpa [mergeLists] using hl
    | cons b r ihr =>
      intro hl hr
      obtain ⟨hal, hl'⟩ := List.pairwise_cons.1 hl
      obtain ⟨hbr, hr'⟩ := List.pairwise_cons.1 hr
      simp only [mergeLists]
      split
      · rename_i hab
        have hab' : a.average ≤ b.average := (cmp_avg_le_iff a b).1 hab
        refine List.pairwise_cons.2 ⟨?_, ihl (b :: r) hl' hr⟩
        intro x hx
        have hx' : x ∈ l ++ b :: r := (mergeLists_perm _ l (b :: r)).subset hx
        rcases List.mem_append.1 hx' with hx' | hx'
        · exact hal x hx'
        · rcases List.mem_cons.1 hx' with hx' | hx'
          · subst hx'
            exact hab'
          · exact le_trans hab' (hbr x hx')
      · rename_i hab
        have hba : b.average ≤ a.average :=
          le_of_lt (not_le.1 (fun hle => hab ((cmp_avg_le_iff a b).2 hle)))
        refine List.pairwise_cons.2 ⟨?_, ihr hl hr'⟩
        intro x hx
        have hx' : x ∈ (a :: l) ++ r := (mergeLists_perm _ (a :: l) r).subset hx
        rcases List.mem_append.1 hx' with hx' | hx'
        · rcases List.mem_cons.1 hx' with hx' | hx'
          · subst hx'
            exact hba
          · exact le_trans hba (hal x hx')
        · exact hbr x hx'

theorem merge_sort_pairwise_aux :
    ∀ (n : Nat) (l : List Student), l.length ≤ n →
      (merge_sort_recursive .SORT_BY_AVG l).Pairwise
        (fun a b => a.average ≤ b.average) := by
  intro n
  induction n with
  | zero =>
    intro l h
    have hl : l = [] := List.length_eq_zero.1 (by omega)
    subst hl
    rw [merge_sort_recursive]
    simp
  | succ n ih =>
    intro l h
    rw [merge_sort_recursive]
    split
    · rename_i h1
      cases l with
      | nil => simp
      | cons a t =>
        cases t with
        | nil => simp
        | cons b u => simp at h1
    · rename_i h1
      exact mergeLists_pairwise _ _ (ih _ (by simp; omega)) (ih _ (by simp; omega))

theorem mergeLists_filter (q : ℚ) :
    ∀ l r : List Student, l.Pairwise (fun a b => a.average ≤ b.average) →
      (mergeLists .SORT_BY_AVG l r).filter (avgEq q) =
        l.filter (avgEq q) ++ r.filter (avgEq q) := by
  intro l
  induction l with
  | nil => intro r _; simp [mergeLists]
  | cons a l ihl =>
    intro r
    induction r with
    | nil => intro hl; simp [mergeLists]
    | cons b r ihr =>
      intro hl
      have hl' := (List.pairwise_cons.1 hl).2
      simp only [mergeLists]
      split
      · rename_i hab
        cases hv : avgEq q a <;>
          simp [List.filter_cons, hv, ihl (b :: r) hl']
      · rename_i hab
        have hba : b.average < a.average :=
          not_le.1 (fun hle => hab ((cmp_avg_le_iff a b).2 hle))
        by_cases pb : b.average = q
        · have hnil : (a :: l).filter (avgEq q) = [] := by
            rw [List.filter_eq_nil_iff]
            intro x hx
            have hax : a.average ≤ x.average := by
              rcases List.mem_cons.1 hx with hx | hx
              · subst hx
                exact le_refl _
              · exact (List.pairwise_cons.1 hl).1 x hx
            have hq : q < x.average := lt_of_lt_of_le (pb ▸ hba) hax
            simp only [avgEq, decide_eq_true_eq]
            exact ne_of_gt hq
          simp [List.filter_cons, avgEq, pb, hnil, ihr hl]
        · simp [List.filter_cons, avgEq, pb, ihr hl]

theorem merge_sort_filter_aux (q : ℚ) :
    ∀ (n : Nat) (l : List Student), l.length ≤ n →
      (merge_sort_recursive .SORT_BY_AVG l).filter (avgEq q) = l.filter (avgEq q) := by
  intro n
  induction n with
  | zero =>
    intro l h
    have hl : l = [] := List.length_eq_zero.1 (by omega)
    subst hl
    rw [merge_sort_recursive]
    simp
  | succ n ih =>
    intro l h
    rw [merge_sort_recursive]
    split
    · rfl
    · rename_i h1
      rw [mergeLists_filter q _ _ (merge_sort_pairwise_aux _ _ le_rfl)]
      rw [ih _ (by simp; omega), ih _ (by simp; omega)]
      rw [← List.filter_append, List.take_append_drop]

theorem sort_students_filter_avg (method : SortMethod) (q : ℚ) (l : List Student) :
    (sort_students method .SORT_BY_AVG l).filter (avgEq q) = l.filter (avgEq q) := by
  unfold sort_students
  split
  · rfl
  · cases method with
    | BUBBLE => exact bubble_sort_filter q l
    | INSERTION => exact insertion_sort_filter q l
    | MERGE => exact merge_sort_filter_aux q l.length l le_rfl

/-- C4: all three sorting methods are stable under the by-average key:
whenever record `a` precedes record `b` in the store (with equal averages
but different ids), `a` still precedes `b` after sorting by average with
any of the three methods. -/
theorem sorting_by_average_stable :
    ∀ (method : SortMethod) (l : List Student) (a b : Student),
      a.average = b.average → a.id ≠ b.id → [a, b].Sublist l →
      [a, b].Sublist (sort_students method .SORT_BY_AVG l) := by
  intro method l a b hav hid hsub
  have hfa : avgEq a.average a = true := by simp [avgEq]
  have hfb : avgEq a.average b = true := by simp [avgEq, hav]
  have h1 : ([a, b]).filter (avgEq a.average) = [a, b] := by
    simp [List.filter_cons, hfa, hfb]
  have h2 := hsub.filter (avgEq a.average)
  rw [h1] at h2
  rw [← sort_students_filter_avg method a.average l] at h2
  exact h2.trans (List.filter_sublist _)

/-- Witness for C4: two equal-average, distinct-id records keep their
order under a bubble sort by average. -/
theorem sorting_by_average_stable_witness :
    (⟨1, "A", [], 5⟩ : Student).average = (⟨2, "B", [], 5⟩ : Student).average ∧
    (⟨1, "A", [], 5⟩ : Student).id ≠ (⟨2, "B", [], 5⟩ : Student).id ∧
    ([⟨1, "A", [], 5⟩, ⟨2, "B", [], 5⟩] : List Student).Sublist
      (sort_students .BUBBLE .SORT_BY_AVG [⟨1, "A", [], 5⟩, ⟨2, "B", [], 5⟩]) :=
  ⟨rfl, by decide,
   sorting_by_average_stable .BUBBLE [⟨1, "A", [], 5⟩, ⟨2, "B", [], 5⟩] _ _ rfl
     (by decide) (List.Sublist.refl _)⟩

/-! ### Binary search correctness -/

theorem getD_eq_get (l : List Student) {n : Nat} (h : n < l.length) :
    l.getD n defaultStudent = l.get ⟨n, h⟩ := by
  induction l generalizing n with
  | nil => simp at h
  | cons a t ih =>
    cases n with
    | zero => rfl
    | succ n => simpa [List.getD_cons_succ] using ih (by simpa using h)

theorem sorted_ids_strict_mono {l : List Student}
    (hsort : l.Pairwise (fun a b => a.id < b.id)) :
    ∀ i j : Nat, i < j → j < l.length →
      (l.getD i defaultStudent).id < (l.getD j defaultStudent).id := by
  intro i j hij hj
  have hi : i < l.length := lt_trans hij hj
  rw [getD_eq_get l hi, getD_eq_get l hj]
  exact List.pairwise_iff_get.1 hsort ⟨i, hi⟩ ⟨j, hj⟩ (Fin.mk_lt_mk.2 hij)

theorem mem_ids_index {l : List Student} {target : Int}
    (hm : target ∈ l.map Student.id) :
    ∃ i : Nat, i < l.length ∧ (l.getD i defaultStudent).id = target := by
  obtain ⟨s, hs, hid⟩ := List.mem_map.1 hm
  obtain ⟨i, hi⟩ := List.mem_iff_get.1 hs
  refine ⟨i.val, i.isLt, ?_⟩
  rw [getD_eq_get l i.isLt]
  show (l.get i).id = target
  rw [hi]
  exact hid

theorem index_ids_mem {l : List Student} {i : Nat} (hi : i < l.length) :
    (l.getD i defaultStudent).id ∈ l.map Student.id := by
  apply List.mem_map.2
  refine ⟨l.getD i defaultStudent, ?_, rfl⟩
  rw [getD_eq_get l hi]
  exact List.get_mem l i hi

theorem bsearch_aux (l : List Student) (target : Int)
    (hsort : l.Pairwise (fun a b => a.id < b.id)) :
    ∀ (n : Nat) (left right : Int),
      (right + 1 - left).toNat ≤ n →
      0 ≤ left → right < (l.length : Int) →
      (∀ i : Nat, i < l.length → (l.getD i defaultStudent).id = target →
        left ≤ (i : Int) ∧ (i : Int) ≤ right) →
      ((target ∈ l.map Student.id →
          0 ≤ binary_search_by_id_recursive l target left right ∧
          (binary_search_by_id_recursive l target left right).toNat < l.length ∧
          (l.getD (binary_search_by_id_recursive l target left right).toNat
              defaultStudent).id = target) ∧
        (target ∉ l.map Student.id →
          binary_search_by_id_recursive l target left right = -1)) := by
  intro n
  induction n with
  | zero =>
    intro left right hn h0 hr hconf
    have hlr : left > right := by omega
    rw [binary_search_by_id_recursive, if_pos hlr]
    constructor
    · intro hm
      exfalso
      obtain ⟨i, hi, hid⟩ := mem_ids_index hm
      have := hconf i hi hid
      omega
    · intro _
      rfl
  | succ n ih =>
    intro left right hn h0 hr hconf
    by_cases hlr : left > right
    · rw [binary_search_by_id_recursive, if_pos hlr]
      constructor
      · intro hm
        exfalso
        obtain ⟨i, hi, hid⟩ := mem_ids_index hm
        have := hconf i hi hid
        omega
      · intro _
        rfl
    · rw [binary_search_by_id_recursive, if_neg hlr]
      have hm1 : left ≤ left + (right - left) / 2 := by omega
      have hm2 : left + (right - left) / 2 ≤ right := by omega
      have hmn : (left + (right - left) / 2).toNat < l.length := by omega
      by_cases heq : idAt l (left + (right - left) / 2) = target
      · rw [if_pos heq]
        constructor
        · intro hm
          exact ⟨by omega, hmn, heq⟩
        · intro hnm
          exfalso
          exact hnm (heq ▸ index_ids_mem hmn)
      · rw [if_neg heq]
        by_cases hgt : idAt l (left + (right - left) / 2) > target
        · rw [if_pos hgt]
          apply ih left ((left + (right - left) / 2) - 1) (by omega) h0 (by omega)
          intro i hi hid
          have hold := hconf i hi hid
          refine ⟨hold.1, ?_⟩
          by_contra hcon
          push_neg at hcon
          rcases Nat.lt_or_ge (left + (right - left) / 2).toNat i with hlt2 | hge
          · have hmono := sorted_ids_strict_mono hsort _ i hlt2 hi
            unfold idAt at hgt
            omega
          · have hieq : i = (left + (right - left) / 2).toNat := by omega
            subst hieq
            unfold idAt at heq
            exact heq hid
        · rw [if_neg hgt]
          have hlt : idAt l (left + (right - left) / 2) < target := by omega
          apply ih ((left + (right - left) / 2) + 1) right (by omega) (by omega) hr
          intro i hi hid
          have hold := hconf i hi hid
          refine ⟨?_, hold.2⟩
          by_contra hcon
          push_neg at hcon
          rcases Nat.lt_or_ge i (left + (right - left) / 2).toNat with hlt2 | hge
          · have hmono := sorted_ids_strict_mono hsort i _ hlt2 hmn
            unfold idAt at hlt
            omega
          · have hieq : i = (left + (right - left) / 2).toNat := by omega
            subst hieq
            unfold idAt at heq
            exact heq hid

/-- C3: when the store is sorted strictly ascending by id (the stated
precondition — the ids of a reachable store are distinct),
`binary_search_by_id_recursive(target, 0, count-1)` returns the index of
the record with the target id for every id present, returns `-1` for
every id not present, and returns the sentinel `-1` whenever the search
interval is empty (`left > right`). -/
theorem binary_search_by_id_correct :
    ∀ (l : List Student) (target : Int),
      l.Pairwise (fun a b => a.id < b.id) →
      ((target ∈ l.map Student.id →
          0 ≤ binary_search_by_id_recursive l target 0 ((l.length : Int) - 1) ∧
          (binary_search_by_id_recursive l target 0 ((l.length : Int) - 1)).toNat <
            l.length ∧
          (l.getD (binary_search_by_id_recursive l target 0
              ((l.length : Int) - 1)).toNat defaultStudent).id = target) ∧
        (target ∉ l.map Student.id →
          binary_search_by_id_recursive l target 0 ((l.length : Int) - 1) = -1) ∧
        (∀ left right : Int, left > right →
          binary_search_by_id_recursive l target left right = -1)) := by
  intro l target hsort
  have hconf : ∀ i : Nat, i < l.length → (l.getD i defaultStudent).id = target →
      (0 : Int) ≤ (i : Int) ∧ (i : Int) ≤ (l.length : Int) - 1 := by
    intro i hi _
    omega
  have key := bsearch_aux l target hsort l.length 0 ((l.length : Int) - 1)
    (by omega) (by omega) (by omega) hconf
  refine ⟨key.1, key.2, ?_⟩
  intro left right h
  rw [binary_search_by_id_recursive, if_pos h]

/-- Witness for C3 on the concrete sorted store with ids `[1, 3, 5]`:
searching `3` finds its index, searching `2` returns `-1`, and an empty
interval returns `-1`. -/
theorem binary_search_by_id_correct_witness :
    (0 ≤ binary_search_by_id_recursive
        [⟨1, "A", [], 0⟩, ⟨3, "B", [], 0⟩, ⟨5, "C", [], 0⟩] 3 0
        ((([⟨1, "A", [], 0⟩, ⟨3, "B", [], 0⟩, ⟨5, "C", [], 0⟩] :
            List Student).length : Int) - 1) ∧
      (binary_search_by_id_recursive
          [⟨1, "A", [], 0⟩, ⟨3, "B", [], 0⟩, ⟨5, "C", [], 0⟩] 3 0
          ((([⟨1, "A", [], 0⟩, ⟨3, "B", [], 0⟩, ⟨5, "C", [], 0⟩] :
              List Student).length : Int) - 1)).toNat <
        ([⟨1, "A", [], 0⟩, ⟨3, "B", [], 0⟩, ⟨5, "C", [], 0⟩] :
          List Student).length ∧
      (([⟨1, "A", [], 0⟩, ⟨3, "B", [], 0⟩, ⟨5, "C", [], 0⟩] :
          List Student).getD
          (binary_search_by_id_recursive
            [⟨1, "A", [], 0⟩, ⟨3, "B", [], 0⟩, ⟨5, "C", [], 0⟩] 3 0
            ((([⟨1, "A", [], 0⟩, ⟨3, "B", [], 0⟩, ⟨5, "C", [], 0⟩] :
                List Student).length : Int) - 1)).toNat
          defaultStudent).id = 3) ∧
    binary_search_by_id_recursive
        [⟨1, "A", [], 0⟩, ⟨3, "B", [], 0⟩, ⟨5, "C", [], 0⟩] 2 0
        ((([⟨1, "A", [], 0⟩, ⟨3, "B", [], 0⟩, ⟨5, "C", [], 0⟩] :
            List Student).length : Int) - 1) = -1 ∧
    binary_search_by_id_recursive
        [⟨1, "A", [], 0⟩, ⟨3, "B", [], 0⟩, ⟨5, "C", [], 0⟩] 3 5 4 = -1 :=
  ⟨(binary_search_by_id_correct _ 3 (by decide)).1 (by decide),
   (binary_search_by_id_correct _ 2 (by decide)).2.1 (by decide),
   (binary_search_by_id_correct _ 3 (by decide)).2.2 5 4 (by decide)⟩
